import Mathlib

set_option maxHeartbeats 1000000

/- Verification development for the liquid template engine sources:
   the chunks package (chunk.go) and the expressions package
   (filter registry and dispatch).  The scanner algorithm and the
   generics call helper are collaborators whose code is not among the
   sources; they are modelled from the specification where needed and
   are marked as such in their doc comments. -/

/-- SourceInfo contains a Chunk's source information (chunk.go).
    The Go struct has exactly two fields, Pathname and lineNo.
    The Go field lineNo has type int; only nonnegative line numbers
    arise, so it is modelled as Nat. -/
structure SourceInfo where
  Pathname : String
  lineNo : Nat
  deriving DecidableEq

/-- ChunkType is the type of a Chunk (chunk.go): a text chunk, a tag
    chunk, or an object chunk. -/
inductive ChunkType where
  | TextChunkType
  | TagChunkType
  | ObjChunkType
  deriving DecidableEq

/-- Chunk is a chunk of a template source (chunk.go).  The Go field
    named Type is rendered here as type, because Type is not usable as
    a field name in Lean.  Name is the tag name of a tag chunk and
    Parameters its arguments; Source is the entirety of the chunk
    including the delimiter markers. -/
structure Chunk where
  type : ChunkType
  SourceInfo : SourceInfo
  Name : String
  Parameters : String
  Source : String
  deriving DecidableEq

/-- Whitespace test used to split a tag interior into name and
    arguments. -/
def wsChar (c : Char) : Bool :=
  c = ' ' || c = '\t' || c = '\n' || c = '\r'

/-- Number of newline characters in a list of characters; used for
    line-number tracking. -/
def countNl (l : List Char) : Nat :=
  (l.filter (fun c => c = '\n')).length

/-- Modelled from the spec: the tag name is the first
    whitespace-delimited identifier of the tag interior (its text
    between the delimiters). -/
def tagName (inner : List Char) : List Char :=
  (inner.dropWhile wsChar).takeWhile (fun c => !wsChar c)

/-- Modelled from the spec: the tag arguments are everything after the
    tag name and the run of whitespace that follows it, with trailing
    whitespace removed (chunk.go documents that the arguments of the
    tag with interior text if 1 are exactly 1). -/
def tagArgs (inner : List Char) : List Char :=
  (((((inner.dropWhile wsChar).dropWhile
      (fun c => !wsChar c)).dropWhile wsChar).reverse).dropWhile wsChar).reverse

/-- Modelled from the spec: a scan failure carries the source location
    of the unterminated opening marker. -/
structure ScanError where
  loc : SourceInfo
  deriving DecidableEq

/-- Quote state update: entering a quoted run on a quote character,
    leaving it on the matching closing quote. -/
def nextState (st : Option Char) (c : Char) : Option Char :=
  match st with
  | some q => if c = q then none else some q
  | none => if c = '\'' || c = '"' then some c else none

/-- Modelled from the spec: quote-aware search for the two-character
    closing marker c1 c2.  The state is some q while inside a quoted
    run opened by q, in which the closing marker is not recognized.
    On success it returns the interior before the marker and the
    remainder after it. -/
def takeUntil (c1 c2 : Char) : Option Char → List Char → Option (List Char × List Char)
  | _, [] => none
  | st, c :: cs =>
    if st = none ∧ c = c1 ∧ cs.head? = some c2 then
      some ([], cs.tail)
    else
      match takeUntil c1 c2 (nextState st c) cs with
      | none => none
      | some (inner, rest) => some (c :: inner, rest)

/-- Modelled from the spec: the run of literal text up to the next
    opening marker, together with the remainder starting at that
    marker. -/
def takeText : List Char → List Char × List Char
  | [] => ([], [])
  | c :: cs =>
    if c = '{' ∧ (cs.head? = some '{' ∨ cs.head? = some '%') then
      ([], c :: cs)
    else
      let pr := takeText cs
      (c :: pr.1, pr.2)

/-- A text chunk: literal template text outside of markup. -/
def textChunk (path : String) (line : Nat) (run : List Char) : Chunk :=
  { type := ChunkType.TextChunkType
    SourceInfo := ⟨path, line⟩
    Name := ""
    Parameters := ""
    Source := String.mk run }

/-- An object chunk with the given interior; its source is the full
    slice including the delimiters, and Parameters holds the body
    between the delimiters. -/
def objChunk (path : String) (line : Nat) (inner : List Char) : Chunk :=
  { type := ChunkType.ObjChunkType
    SourceInfo := ⟨path, line⟩
    Name := ""
    Parameters := String.mk inner
    Source := String.mk ('{' :: '{' :: (inner ++ ['}', '}'])) }

/-- A tag chunk with the given interior; Name is the first identifier
    of the interior and Parameters the argument text after it. -/
def tagChunk (path : String) (line : Nat) (inner : List Char) : Chunk :=
  { type := ChunkType.TagChunkType
    SourceInfo := ⟨path, line⟩
    Name := String.mk (tagName inner)
    Parameters := String.mk (tagArgs inner)
    Source := String.mk ('{' :: '%' :: (inner ++ ['%', '}'])) }

/-- Modelled from the spec: one forward pass over the input.  At each
    position the scanner matches an opening object or tag marker, or
    falls back to a literal text run.  Unterminated markup yields a
    scan error carrying the opening location.  Fuel bounds the
    recursion; scan supplies more fuel than the input length, so the
    fuel never runs out. -/
def scanAux (path : String) : Nat → Nat → List Char → Except ScanError (List Chunk)
  | 0, _, _ => Except.ok []
  | _ + 1, _, [] => Except.ok []
  | fuel + 1, line, c :: rest =>
    if c = '{' ∧ rest.head? = some '{' then
      match takeUntil '}' '}' none rest.tail with
      | none => Except.error ⟨⟨path, line⟩⟩
      | some (inner, rest') =>
        match scanAux path fuel (line + countNl inner) rest' with
        | Except.error e => Except.error e
        | Except.ok cs => Except.ok (objChunk path line inner :: cs)
    else if c = '{' ∧ rest.head? = some '%' then
      match takeUntil '%' '}' none rest.tail with
      | none => Except.error ⟨⟨path, line⟩⟩
      | some (inner, rest') =>
        match scanAux path fuel (line + countNl inner) rest' with
        | Except.error e => Except.error e
        | Except.ok cs => Except.ok (tagChunk path line inner :: cs)
    else
      match scanAux path fuel (line + countNl (c :: (takeText rest).1)) (takeText rest).2 with
      | Except.error e => Except.error e
      | Except.ok cs => Except.ok (textChunk path line (c :: (takeText rest).1) :: cs)

/-- Modelled from the spec: scan a template string into its chunk
    sequence, starting at line 1.  Whitespace-control markers are part
    of the chunk interiors, consistent with the invariant that the
    chunk sources concatenate back to the input. -/
def scan (path : String) (s : String) : Except ScanError (List Chunk) :=
  scanAux path (s.data.length + 1) 1 s.data

/-- Concatenation of the Source fields of a chunk sequence, in output
    order. -/
def concatSources (cs : List Chunk) : String :=
  cs.foldr (fun c acc => c.Source ++ acc) ""

/-- The interior of a delimited chunk source: the text between the
    two-character opening and closing markers. -/
def interiorOf (l : List Char) : List Char :=
  (l.drop 2).take (l.length - 4)

/-- The data of a constructed string is the original character list. -/
theorem data_mk (l : List Char) : (String.mk l).data = l := rfl

/-- String append acts as list append on the underlying data. -/
theorem data_append (a b : String) : (a ++ b).data = a.data ++ b.data := rfl

/-- Taking the length of the left part of an append returns that part. -/
theorem take_len_append {α : Type} (l₁ l₂ : List α) :
    (l₁ ++ l₂).take l₁.length = l₁ := by
  induction l₁ with
  | nil => simp
  | cons a t ih => simp [ih]

/-- The interior of a chunk source built by wrapping an interior in
    two-character markers is that interior. -/
theorem interiorOf_wrap (a b c d : Char) (inner : List Char) :
    interiorOf (a :: b :: (inner ++ [c, d])) = inner := by
  have hlen : (a :: b :: (inner ++ [c, d])).length - 4 = inner.length := by
    simp
  unfold interiorOf
  rw [hlen]
  show (inner ++ [c, d]).take inner.length = inner
  exact take_len_append inner [c, d]

/-- A successful quote-aware marker search splits the input exactly at
    the closing marker. -/
theorem takeUntil_eq (c1 c2 : Char) :
    ∀ (l : List Char) (st : Option Char) (inner rest : List Char),
      takeUntil c1 c2 st l = some (inner, rest) → l = inner ++ c1 :: c2 :: rest := by
  intro l
  induction l with
  | nil => intro st inner rest h; simp [takeUntil] at h
  | cons c cs ih =>
    intro st inner rest h
    unfold takeUntil at h
    by_cases hcl : st = none ∧ c = c1 ∧ cs.head? = some c2
    · rw [if_pos hcl] at h
      obtain ⟨-, hc1, hc2⟩ := hcl
      cases cs with
      | nil => simp at hc2
      | cons d ds =>
        simp only [List.head?] at hc2
        injection hc2 with hd
        simp only [List.tail] at h
        injection h with h'
        rw [Prod.mk.injEq] at h'
        obtain ⟨h1, h2⟩ := h'
        subst h1; subst h2; subst hc1; subst hd
        simp
    · rw [if_neg hcl] at h
      cases htu : takeUntil c1 c2 (nextState st c) cs with
      | none => rw [htu] at h; cases h
      | some pr =>
        obtain ⟨inner', rest'⟩ := pr
        rw [htu] at h
        simp only [] at h
        injection h with h'
        rw [Prod.mk.injEq] at h'
        obtain ⟨h1, h2⟩ := h'
        subst h1; subst h2
        have heq := ih (nextState st c) inner' rest' htu
        rw [heq]
        simp

/-- The text run and its remainder concatenate back to the input. -/
theorem takeText_eq : ∀ l : List Char, (takeText l).1 ++ (takeText l).2 = l := by
  intro l
  induction l with
  | nil => simp [takeText]
  | cons c cs ih =>
    by_cases hc : c = '{' ∧ (cs.head? = some '{' ∨ cs.head? = some '%')
    · simp [takeText, hc]
    · simp [takeText, hc, ih]

/-- On success, the chunk sources concatenate (as character lists) back
    to the scanned input. -/
theorem scanAux_sources (path : String) :
    ∀ (fuel line : Nat) (input : List Char) (cs : List Chunk),
      input.length < fuel →
      scanAux path fuel line input = Except.ok cs →
      cs.foldr (fun c acc => c.Source.data ++ acc) [] = input := by
  intro fuel
  induction fuel with
  | zero => intro line input cs h; omega
  | succ fuel ih =>
    intro line input cs hlen h
    cases input with
    | nil =>
      simp [scanAux] at h
      subst h
      rfl
    | cons c rest =>
      unfold scanAux at h
      by_cases h1 : c = '{' ∧ rest.head? = some '{'
      · rw [if_pos h1] at h
        cases htu : takeUntil '}' '}' none rest.tail with
        | none => rw [htu] at h; cases h
        | some pr =>
          obtain ⟨inner, rest'⟩ := pr
          rw [htu] at h
          simp only [] at h
          cases hrec : scanAux path fuel (line + countNl inner) rest' with
          | error e => rw [hrec] at h; cases h
          | ok cs' =>
            rw [hrec] at h
            simp only [] at h
            injection h with h'
            subst h'
            obtain ⟨hc, hh⟩ := h1
            have hrest : rest = '{' :: rest.tail := by
              cases rest with
              | nil => simp at hh
              | cons d ds =>
                simp only [List.head?] at hh
                injection hh with hd
                simp [hd]
            have hsplit := takeUntil_eq '}' '}' rest.tail none inner rest' htu
            have hlen' : rest'.length < fuel := by
              have h2 : rest.tail.length = inner.length + (rest'.length + 2) := by
                rw [hsplit]; simp
              have h3 : rest.length = rest.tail.length + 1 := by
                rw [hrest]; simp
              simp only [List.length_cons] at hlen
              omega
            have hih := ih (line + countNl inner) rest' cs' hlen' hrec
            simp only [List.foldr_cons, hih, objChunk, data_mk]
            rw [hrest, hsplit, hc]
            simp
      · rw [if_neg h1] at h
        by_cases h2 : c = '{' ∧ rest.head? = some '%'
        · rw [if_pos h2] at h
          cases htu : takeUntil '%' '}' none rest.tail with
          | none => rw [htu] at h; cases h
          | some pr =>
            obtain ⟨inner, rest'⟩ := pr
            rw [htu] at h
            simp only [] at h
            cases hrec : scanAux path fuel (line + countNl inner) rest' with
            | error e => rw [hrec] at h; cases h
            | ok cs' =>
              rw [hrec] at h
              simp only [] at h
              injection h with h'
              subst h'
              obtain ⟨hc, hh⟩ := h2
              have hrest : rest = '%' :: rest.tail := by
                cases rest with
                | nil => simp at hh
                | cons d ds =>
                  simp only [List.head?] at hh
                  injection hh with hd
                  simp [hd]
              have hsplit := takeUntil_eq '%' '}' rest.tail none inner rest' htu
              have hlen' : rest'.length < fuel := by
                have h3 : rest.tail.length = inner.length + (rest'.length + 2) := by
                  rw [hsplit]; simp
                have h4 : rest.length = rest.tail.length + 1 := by
                  rw [hrest]; simp
                simp only [List.length_cons] at hlen
                omega
              have hih := ih (line + countNl inner) rest' cs' hlen' hrec
              simp only [List.foldr_cons, hih, tagChunk, data_mk]
              rw [hrest, hsplit, hc]
              simp
        · rw [if_neg h2] at h
          cases hrec : scanAux path fuel (line + countNl (c :: (takeText rest).1)) (takeText rest).2 with
          | error e => rw [hrec] at h; cases h
          | ok cs' =>
            rw [hrec] at h
            simp only [] at h
            injection h with h'
            subst h'
            have htt := takeText_eq rest
            have hlen' : (takeText rest).2.length < fuel := by
              have h3 : (takeText rest).1.length + (takeText rest).2.length = rest.length := by
                rw [← List.length_append, htt]
              simp only [List.length_cons] at hlen
              omega
            have hih := ih (line + countNl (c :: (takeText rest).1)) (takeText rest).2 cs' hlen' hrec
            simp only [List.foldr_cons, hih, textChunk, data_mk]
            simp [htt]

/-- Facts holding for every chunk the scanner produces: its location
    names the scanned pathname with a line number at least 1; its kind
    is text, tag, or object; a tag chunk's Name is the first identifier
    of its interior and its Parameters the argument text after it; an
    object chunk's Parameters is the body between the delimiters. -/
def ChunkFacts (path : String) (ch : Chunk) : Prop :=
  ch.SourceInfo.Pathname = path ∧ 1 ≤ ch.SourceInfo.lineNo ∧
  (ch.type = ChunkType.TextChunkType ∨ ch.type = ChunkType.TagChunkType ∨
    ch.type = ChunkType.ObjChunkType) ∧
  (ch.type = ChunkType.TagChunkType →
    ch.Source.data = '{' :: '%' :: (interiorOf ch.Source.data ++ ['%', '}']) ∧
    ch.Name = String.mk (tagName (interiorOf ch.Source.data)) ∧
    ch.Parameters = String.mk (tagArgs (interiorOf ch.Source.data))) ∧
  (ch.type = ChunkType.ObjChunkType →
    ch.Source.data = '{' :: '{' :: (interiorOf ch.Source.data ++ ['}', '}']) ∧
    ch.Parameters = String.mk (interiorOf ch.Source.data) ∧
    ch.Name = "")

/-- A text chunk satisfies the chunk facts. -/
theorem chunkFacts_text (path : String) (line : Nat) (run : List Char)
    (h : 1 ≤ line) : ChunkFacts path (textChunk path line run) := by
  refine ⟨rfl, h, Or.inl rfl, ?_, ?_⟩
  · intro ht; cases ht
  · intro ht; cases ht

/-- An object chunk satisfies the chunk facts. -/
theorem chunkFacts_obj (path : String) (line : Nat) (inner : List Char)
    (h : 1 ≤ line) : ChunkFacts path (objChunk path line inner) := by
  refine ⟨rfl, h, Or.inr (Or.inr rfl), ?_, ?_⟩
  · intro ht; cases ht
  · intro _
    refine ⟨?_, ?_, rfl⟩
    · show ('{' :: '{' :: (inner ++ ['}', '}'])) =
        '{' :: '{' :: (interiorOf ('{' :: '{' :: (inner ++ ['}', '}'])) ++ ['}', '}'])
      rw [interiorOf_wrap]
    · show String.mk inner = String.mk (interiorOf ('{' :: '{' :: (inner ++ ['}', '}'])))
      rw [interiorOf_wrap]

/-- A tag chunk satisfies the chunk facts. -/
theorem chunkFacts_tag (path : String) (line : Nat) (inner : List Char)
    (h : 1 ≤ line) : ChunkFacts path (tagChunk path line inner) := by
  refine ⟨rfl, h, Or.inr (Or.inl rfl), ?_, ?_⟩
  · intro _
    refine ⟨?_, ?_, ?_⟩
    · show ('{' :: '%' :: (inner ++ ['%', '}'])) =
        '{' :: '%' :: (interiorOf ('{' :: '%' :: (inner ++ ['%', '}'])) ++ ['%', '}'])
      rw [interiorOf_wrap]
    · show String.mk (tagName inner) =
        String.mk (tagName (interiorOf ('{' :: '%' :: (inner ++ ['%', '}']))))
      rw [interiorOf_wrap]
    · show String.mk (tagArgs inner) =
        String.mk (tagArgs (interiorOf ('{' :: '%' :: (inner ++ ['%', '}']))))
      rw [interiorOf_wrap]
  · intro ht; cases ht

/-- Every chunk produced by a sufficiently fuelled scan satisfies the
    chunk facts. -/
theorem scanAux_mem (path : String) :
    ∀ (fuel line : Nat) (input : List Char) (cs : List Chunk),
      input.length < fuel → 1 ≤ line →
      scanAux path fuel line input = Except.ok cs →
      ∀ ch ∈ cs, ChunkFacts path ch := by
  intro fuel
  induction fuel with
  | zero => intro line input cs h; omega
  | succ fuel ih =>
    intro line input cs hlen hline h
    cases input with
    | nil =>
      simp [scanAux] at h
      subst h
      intro ch hch
      cases hch
    | cons c rest =>
      unfold scanAux at h
      by_cases h1 : c = '{' ∧ rest.head? = some '{'
      · rw [if_pos h1] at h
        cases htu : takeUntil '}' '}' none rest.tail with
        | none => rw [htu] at h; cases h
        | some pr =>
          obtain ⟨inner, rest'⟩ := pr
          rw [htu] at h
          simp only [] at h
          cases hrec : scanAux path fuel (line + countNl inner) rest' with
          | error e => rw [hrec] at h; cases h
          | ok cs' =>
            rw [hrec] at h
            simp only [] at h
            injection h with h'
            subst h'
            have hsplit := takeUntil_eq '}' '}' rest.tail none inner rest' htu
            have hlen' : rest'.length < fuel := by
              have h2 : rest.tail.length = inner.length + (rest'.length + 2) := by
                rw [hsplit]; simp
              have h3 : rest.tail.length ≤ rest.length := by
                cases rest <;> simp
              simp only [List.length_cons] at hlen
              omega
            have hih := ih (line + countNl inner) rest' cs' hlen' (by omega) hrec
            intro ch hch
            cases hch with
            | head => exact chunkFacts_obj path line inner hline
            | tail _ hmem => exact hih ch hmem
      · rw [if_neg h1] at h
        by_cases h2 : c = '{' ∧ rest.head? = some '%'
        · rw [if_pos h2] at h
          cases htu : takeUntil '%' '}' none rest.tail with
          | none => rw [htu] at h; cases h
          | some pr =>
            obtain ⟨inner, rest'⟩ := pr
            rw [htu] at h
            simp only [] at h
            cases hrec : scanAux path fuel (line + countNl inner) rest' with
            | error e => rw [hrec] at h; cases h
            | ok cs' =>
              rw [hrec] at h
              simp only [] at h
              injection h with h'
              subst h'
              have hsplit := takeUntil_eq '%' '}' rest.tail none inner rest' htu
              have hlen' : rest'.length < fuel := by
                have h3 : rest.tail.length = inner.length + (rest'.length + 2) := by
                  rw [hsplit]; simp
                have h4 : rest.tail.length ≤ rest.length := by
                  cases rest <;> simp
                simp only [List.length_cons] at hlen
                omega
              have hih := ih (line + countNl inner) rest' cs' hlen' (by omega) hrec
              intro ch hch
              cases hch with
              | head => exact chunkFacts_tag path line inner hline
              | tail _ hmem => exact hih ch hmem
        · rw [if_neg h2] at h
          cases hrec : scanAux path fuel (line + countNl (c :: (takeText rest).1)) (takeText rest).2 with
          | error e => rw [hrec] at h; cases h
          | ok cs' =>
            rw [hrec] at h
            simp only [] at h
            injection h with h'
            subst h'
            have hlen' : (takeText rest).2.length < fuel := by
              have h3 : (takeText rest).1.length + (takeText rest).2.length = rest.length := by
                rw [← List.length_append, takeText_eq rest]
              simp only [List.length_cons] at hlen
              omega
            have hih := ih (line + countNl (c :: (takeText rest).1)) (takeText rest).2 cs' hlen' (by omega) hrec
            intro ch hch
            cases hch with
            | head => exact chunkFacts_text path line (c :: (takeText rest).1) hline
            | tail _ hmem => exact hih ch hmem

/-- A scan failure reports a location whose pathname is the scanned
    pathname and whose line number is at least 1. -/
theorem scanAux_err (path : String) :
    ∀ (fuel line : Nat) (input : List Char) (e : ScanError),
      input.length < fuel → 1 ≤ line →
      scanAux path fuel line input = Except.error e →
      e.loc.Pathname = path ∧ 1 ≤ e.loc.lineNo := by
  intro fuel
  induction fuel with
  | zero => intro line input e h; omega
  | succ fuel ih =>
    intro line input e hlen hline h
    cases input with
    | nil => simp [scanAux] at h
    | cons c rest =>
      unfold scanAux at h
      by_cases h1 : c = '{' ∧ rest.head? = some '{'
      · rw [if_pos h1] at h
        cases htu : takeUntil '}' '}' none rest.tail with
        | none =>
          rw [htu] at h
          injection h with h'
          subst h'
          exact ⟨rfl, hline⟩
        | some pr =>
          obtain ⟨inner, rest'⟩ := pr
          rw [htu] at h
          simp only [] at h
          cases hrec : scanAux path fuel (line + countNl inner) rest' with
          | error e' =>
            rw [hrec] at h
            simp only [] at h
            injection h with h'
            subst h'
            have hsplit := takeUntil_eq '}' '}' rest.tail none inner rest' htu
            have hlen' : rest'.length < fuel := by
              have h2 : rest.tail.length = inner.length + (rest'.length + 2) := by
                rw [hsplit]; simp
              have h3 : rest.tail.length ≤ rest.length := by
                cases rest <;> simp
              simp only [List.length_cons] at hlen
              omega
            exact ih (line + countNl inner) rest' _ hlen' (by omega) hrec
          | ok cs' => rw [hrec] at h; cases h
      · rw [if_neg h1] at h
        by_cases h2 : c = '{' ∧ rest.head? = some '%'
        · rw [if_pos h2] at h
          cases htu : takeUntil '%' '}' none rest.tail with
          | none =>
            rw [htu] at h
            injection h with h'
            subst h'
            exact ⟨rfl, hline⟩
          | some pr =>
            obtain ⟨inner, rest'⟩ := pr
            rw [htu] at h
            simp only [] at h
            cases hrec : scanAux path fuel (line + countNl inner) rest' with
            | error e' =>
              rw [hrec] at h
              simp only [] at h
              injection h with h'
              subst h'
              have hsplit := takeUntil_eq '%' '}' rest.tail none inner rest' htu
              have hlen' : rest'.length < fuel := by
                have h3 : rest.tail.length = inner.length + (rest'.length + 2) := by
                  rw [hsplit]; simp
                have h4 : rest.tail.length ≤ rest.length := by
                  cases rest <;> simp
                simp only [List.length_cons] at hlen
                omega
              exact ih (line + countNl inner) rest' _ hlen' (by omega) hrec
            | ok cs' => rw [hrec] at h; cases h
        · rw [if_neg h2] at h
          cases hrec : scanAux path fuel (line + countNl (c :: (takeText rest).1)) (takeText rest).2 with
          | error e' =>
            rw [hrec] at h
            simp only [] at h
            injection h with h'
            subst h'
            have hlen' : (takeText rest).2.length < fuel := by
              have h3 : (takeText rest).1.length + (takeText rest).2.length = rest.length := by
                rw [← List.length_append, takeText_eq rest]
              simp only [List.length_cons] at hlen
              omega
            exact ih (line + countNl (c :: (takeText rest).1)) (takeText rest).2 _ hlen' (by omega) hrec
          | ok cs' => rw [hrec] at h; cases h

/-- The data of the concatenated sources is the concatenation of the
    per-chunk source data. -/
theorem concatSources_data (cs : List Chunk) :
    (concatSources cs).data = cs.foldr (fun c acc => c.Source.data ++ acc) [] := by
  induction cs with
  | nil => rfl
  | cons c t ih =>
    show (c.Source ++ concatSources t).data = _
    rw [data_append, ih, List.foldr_cons]

/-- C4: for every input string on which the scanner succeeds,
    concatenating the Source fields of the produced chunks in their
    output order yields exactly the input string. -/
theorem scan_source_concat (path s : String) (cs : List Chunk)
    (h : scan path s = Except.ok cs) : concatSources cs = s := by
  have hs := scanAux_sources path (s.data.length + 1) 1 s.data cs (by omega) h
  have hd : (concatSources cs).data = s.data := by
    rw [concatSources_data, hs]
  exact congrArg String.mk hd

/-- The text chunk produced by scanning the template a followed by an
    object. -/
def chW4a : Chunk := ⟨ChunkType.TextChunkType, ⟨"p", 1⟩, "", "", "a"⟩

/-- The object chunk produced by scanning that template. -/
def chW4b : Chunk := ⟨ChunkType.ObjChunkType, ⟨"p", 1⟩, "", "b", "{{b}}"⟩

/-- The chunk sequence of that template. -/
def csW4 : List Chunk := [chW4a, chW4b]

/-- Witness for C4 at a concrete template. -/
theorem scan_source_concat_witness :
    scan "p" "a{{b}}" = Except.ok csW4 ∧ concatSources csW4 = "a{{b}}" :=
  ⟨rfl, scan_source_concat "p" "a{{b}}" csW4 rfl⟩

/-- C7 counterexample: a source location is fully determined by its
    pathname and line number; the SourceInfo struct of chunk.go has
    exactly those two fields, so the location carries no column
    component, refuting the claim that it consists of a pathname, a
    line number, and a column. -/
theorem sourceInfo_no_column :
    Function.Injective (fun si : SourceInfo => (si.Pathname, si.lineNo)) := by
  intro a b h
  cases a
  cases b
  simp only [Prod.mk.injEq] at h
  simp [h.1, h.2]

/-- C7 (amended): every chunk carries a source location consisting of a
    pathname and a line number starting at 1 (there is no column
    component), and a scan failure carries such a location for the
    unterminated opening marker. -/
theorem chunk_location (path s : String) :
    (∀ cs, scan path s = Except.ok cs →
      ∀ ch ∈ cs, ch.SourceInfo.Pathname = path ∧ 1 ≤ ch.SourceInfo.lineNo) ∧
    (∀ e, scan path s = Except.error e →
      e.loc.Pathname = path ∧ 1 ≤ e.loc.lineNo) := by
  constructor
  · intro cs h ch hch
    have hf := scanAux_mem path (s.data.length + 1) 1 s.data cs (by omega) (by omega) h ch hch
    exact ⟨hf.1, hf.2.1⟩
  · intro e h
    exact scanAux_err path (s.data.length + 1) 1 s.data e (by omega) (by omega) h

/-- Witness for C7 at a concrete template and a concrete unterminated
    template. -/
theorem chunk_location_witness :
    (chW4b.SourceInfo.Pathname = "p" ∧ 1 ≤ chW4b.SourceInfo.lineNo) ∧
    ((⟨⟨"p", 1⟩⟩ : ScanError).loc.Pathname = "p" ∧
      1 ≤ (⟨⟨"p", 1⟩⟩ : ScanError).loc.lineNo) :=
  ⟨(chunk_location "p" "a{{b}}").1 csW4 rfl chW4b (by decide),
   (chunk_location "p" "\x7b\x7b x").2 ⟨⟨"p", 1⟩⟩ rfl⟩

/-- C8: every scanned chunk's kind is exactly one of Text, Tag, or
    Object; a tag chunk's Name holds the first identifier of its
    interior and its Parameters the argument text after the name; an
    object chunk's Parameters holds the body between the delimiters. -/
theorem chunk_kind_fields (path s : String) (cs : List Chunk)
    (h : scan path s = Except.ok cs) :
    ∀ ch ∈ cs,
      (ch.type = ChunkType.TextChunkType ∨ ch.type = ChunkType.TagChunkType ∨
        ch.type = ChunkType.ObjChunkType) ∧
      (ch.type = ChunkType.TagChunkType →
        ch.Source.data = '{' :: '%' :: (interiorOf ch.Source.data ++ ['%', '}']) ∧
        ch.Name = String.mk (tagName (interiorOf ch.Source.data)) ∧
        ch.Parameters = String.mk (tagArgs (interiorOf ch.Source.data))) ∧
      (ch.type = ChunkType.ObjChunkType →
        ch.Source.data = '{' :: '{' :: (interiorOf ch.Source.data ++ ['}', '}']) ∧
        ch.Parameters = String.mk (interiorOf ch.Source.data) ∧
        ch.Name = "") := by
  intro ch hch
  have hf := scanAux_mem path (s.data.length + 1) 1 s.data cs (by omega) (by omega) h ch hch
  exact ⟨hf.2.2.1, hf.2.2.2.1, hf.2.2.2.2⟩

/-- The tag chunk produced by scanning a lone if tag. -/
def chW8 : Chunk := ⟨ChunkType.TagChunkType, ⟨"p", 1⟩, "if", "1", "{% if 1 %}"⟩

/-- Witness for C8 at a concrete tag template: the scanned tag chunk's
    Name is the first identifier of the interior and its Parameters the
    argument text, with their concrete values. -/
theorem chunk_kind_fields_witness :
    (chW8.Name = String.mk (tagName (interiorOf chW8.Source.data)) ∧
      chW8.Parameters = String.mk (tagArgs (interiorOf chW8.Source.data))) ∧
    chW8.Name = "if" ∧ chW8.Parameters = "1" :=
  ⟨⟨(((chunk_kind_fields "p" "{% if 1 %}" [chW8] rfl chW8 (by decide)).2.1) rfl).2.1,
    (((chunk_kind_fields "p" "{% if 1 %}" [chW8] rfl chW8 (by decide)).2.1) rfl).2.2⟩,
   rfl, rfl⟩

/-- Expression AST.  Modelled from the spec: of the expression
    sub-language only the variable-path and literal cases exercised by
    the closure re-parse are needed here. -/
inductive Expr where
  | ident (name : String)
  | strLit (s : String)
  | intLit (n : Int)
  deriving DecidableEq

/-- The values that the Go code raises as panics or returns as errors
    around filter dispatch.  The interpreterError case embeds the
    InterpreterError string type of the source; genericError embeds the
    generic (domain-level) error type of the generics collaborator;
    undefinedFilter embeds errors.UndefinedFilter; typeAssertion is the
    host runtime's failed type-assertion error; filterArityError is the
    arity failure of dispatch; parseError is an expression parse
    failure; hostError covers the remaining host errors. -/
inductive GoError where
  | interpreterError (msg : String)
  | genericError (msg : String)
  | undefinedFilter (name : String)
  | typeAssertion
  | filterArityError (got required optional : Nat)
  | parseError (msg : String)
  | hostError (msg : String)
  deriving DecidableEq

/-- Runtime values flowing through filter dispatch.  A Go byte slice is
    a list of byte values (Nats below 256); closureV is the closure
    struct of the source, an expression bound together with the
    environment it captured. -/
inductive Value where
  | nil
  | boolV (b : Bool)
  | intV (n : Int)
  | strV (s : String)
  | bytesV (bs : List Nat)
  | closureV (e : Expr) (ctx : String → Value)

/-- The evaluation context: the current binding environment. -/
abbrev Context := String → Value

/-- valueFn is a compiled expression: a function of the context.  A Go
    panic during evaluation is modelled as an error result. -/
def valueFn := Context → Except GoError Value

/-- Modelled from the spec: Parse re-parses a string as an expression.
    Only the variable-path case matters to the dispatcher claims: an
    identifier parses to a variable, anything else fails with a parse
    error. -/
def identChar (c : Char) : Bool := c.isAlphanum || c = '_'

/-- Modelled from the spec: the expression parser, restricted to the
    identifier case that closure arguments exercise. -/
def Parse (s : String) : Except GoError Expr :=
  if s.data ≠ [] ∧ s.data.all identChar then Except.ok (Expr.ident s)
  else Except.error (GoError.parseError s)

/-- The reflective view of a Go filter parameter type: an
    expression-closure parameter (a type convertible from the closure
    struct but not from the empty interface), an optional trailing
    parameter, or a plain value parameter. -/
inductive GoType where
  | closureT
  | optionalT
  | valueT
  deriving DecidableEq

/-- isClosureInterfaceType reports whether a parameter type is the
    expression-closure type (in the source: closure is convertible to
    the type while interface values are not). -/
def isClosureInterfaceType (t : GoType) : Bool :=
  match t with
  | GoType.closureT => true
  | _ => false

/-- The reflective view of a Go function passed as a filter: its
    parameter types (the first is the input value), its output count,
    and its behavior on an argument list.  A panic raised by the body
    is an error result. -/
structure GoFunc where
  ins : List GoType
  numOut : Nat
  body : List Value → Except GoError Value

/-- A Go value handed to filter registration: a function or not. -/
inductive GoValue where
  | funcV (fn : GoFunc)
  | nonFunc (kind : String)

/-- The filter registry: the package-level filters map of the source. -/
def FilterMap := String → Option GoValue

/-- DefineFilter defines a filter (expressions package).  The source
    panics when the callable is not a function, has no input, or has
    more than two outputs; panics are modelled as error results.  On
    success the callable is stored under the name, replacing any
    previous entry. -/
def DefineFilter (filters : FilterMap) (name : String) (fn : GoValue) :
    Except GoError FilterMap :=
  match fn with
  | GoValue.nonFunc _ => Except.error (GoError.hostError "a filter must be a function")
  | GoValue.funcV f =>
    if f.ins.length < 1 then
      Except.error (GoError.hostError "a filter function must have at least one input")
    else if 2 < f.numOut then
      Except.error (GoError.hostError "a filter must be have one or two outputs")
    else
      Except.ok (fun k => if k = name then some fn else filters k)

/-- The number of required parameters after the input value. -/
def requiredCount (fn : GoFunc) : Nat :=
  ((fn.ins.drop 1).filter (fun t => !(t = GoType.optionalT))).length

/-- The number of optional parameters. -/
def optionalCount (fn : GoFunc) : Nat :=
  ((fn.ins.drop 1).filter (fun t => t = GoType.optionalT)).length

/-- Modelled from the spec: the generics collaborator's Call verifies
    that the evaluated argument count (the arguments after the input
    value) lies between required and required plus optional, failing
    with a filter arity error otherwise, and then invokes the function
    body. -/
def genericsCall (fn : GoFunc) (args : List Value) : Except GoError Value :=
  if args.length - 1 < requiredCount fn ∨
      requiredCount fn + optionalCount fn < args.length - 1 then
    Except.error (GoError.filterArityError (args.length - 1) (requiredCount fn) (optionalCount fn))
  else fn.body args

/-- Models the Go conversion string(bs) of a byte slice to a string at
    the granularity the dispatcher claims need. -/
def stringOfBytes (bs : List Nat) : String :=
  String.mk (bs.map (fun b => Char.ofNat (b % 256)))

/-- The output switch of makeFilter: a byte-slice result is decoded to
    a string; every other result is returned unchanged. -/
def convertOut (v : Value) : Value :=
  match v with
  | Value.bytesV bs => Value.strV (stringOfBytes bs)
  | v => v

/-- The argument loop of makeFilter: for each parameter, when the
    corresponding declared parameter type (at position i plus one,
    within bounds) is the expression-closure type, the argument is
    evaluated, its value asserted to be a string, that string re-parsed
    as an expression, and the closure of the parsed expression and the
    current context appended; otherwise the evaluated argument is
    appended.  Failures at any step abort the loop. -/
def buildArgs (fn : GoFunc) : Nat → List valueFn → Context → Except GoError (List Value)
  | _, [], _ => Except.ok []
  | i, p :: ps, ctx =>
    if i < fn.ins.length ∧ isClosureInterfaceType (fn.ins.getD i GoType.valueT) then
      match p ctx with
      | Except.error e => Except.error e
      | Except.ok v =>
        match v with
        | Value.strV s =>
          match Parse s with
          | Except.error e => Except.error e
          | Except.ok ex =>
            match buildArgs fn (i + 1) ps ctx with
            | Except.error e => Except.error e
            | Except.ok rest => Except.ok (Value.closureV ex ctx :: rest)
        | _ => Except.error GoError.typeAssertion
    else
      match p ctx with
      | Except.error e => Except.error e
      | Except.ok v =>
        match buildArgs fn (i + 1) ps ctx with
        | Except.error e => Except.error e
        | Except.ok rest => Except.ok (v :: rest)

/-- The body of the function value makeFilter returns, before the
    deferred recover: evaluate the input, build the argument list,
    invoke the filter through the generics collaborator, and convert a
    byte-slice result. -/
def rawDispatch (fn : GoFunc) (f : valueFn) (params : List valueFn) (ctx : Context) :
    Except GoError Value :=
  match f ctx with
  | Except.error e => Except.error e
  | Except.ok input =>
    match buildArgs fn 1 params ctx with
    | Except.error e => Except.error e
    | Except.ok rest =>
      match genericsCall fn (input :: rest) with
      | Except.error e => Except.error e
      | Except.ok out => Except.ok (convertOut out)

/-- The deferred recover of makeFilter: a generic (domain-level) error
    is converted to an InterpreterError carrying its message; every
    other panic is re-raised unchanged. -/
def recoverWrap (r : Except GoError Value) : Except GoError Value :=
  match r with
  | Except.error (GoError.genericError m) => Except.error (GoError.interpreterError m)
  | r => r

/-- makeFilter (expressions package): look the filter up by name,
    panicking with UndefinedFilter on a miss, and return the dispatch
    function wrapped in the deferred recover.  A stored non-function
    would fail reflection; that cannot arise through DefineFilter. -/
def makeFilter (filters : FilterMap) (f : valueFn) (name : String)
    (params : List valueFn) : Except GoError valueFn :=
  match filters name with
  | none => Except.error (GoError.undefinedFilter name)
  | some (GoValue.nonFunc k) => Except.error (GoError.hostError k)
  | some (GoValue.funcV fn) =>
    Except.ok (fun ctx => recoverWrap (rawDispatch fn f params ctx))

/-- Modelled from the spec: during rendering, evaluating a filter
    application builds the dispatch function with makeFilter and
    invokes it on the current context (the evaluator driving this is
    not among the sources). -/
def evalFilterApp (filters : FilterMap) (f : valueFn) (name : String)
    (params : List valueFn) (ctx : Context) : Except GoError Value :=
  match makeFilter filters f name params with
  | Except.error e => Except.error e
  | Except.ok g => g ctx

/-- When the filter name resolves to a function, evaluating the filter
    application runs the dispatch body under the deferred recover. -/
theorem evalFilterApp_eq (filters : FilterMap) (f : valueFn) (name : String)
    (params : List valueFn) (fn : GoFunc) (ctx : Context)
    (hf : filters name = some (GoValue.funcV fn)) :
    evalFilterApp filters f name params ctx = recoverWrap (rawDispatch fn f params ctx) := by
  unfold evalFilterApp makeFilter
  rw [hf]

/-- Within the arity bounds, the generics call invokes the body. -/
theorem genericsCall_ok (fn : GoFunc) (args : List Value)
    (h1 : requiredCount fn ≤ args.length - 1)
    (h2 : args.length - 1 ≤ requiredCount fn + optionalCount fn) :
    genericsCall fn args = fn.body args := by
  unfold genericsCall
  rw [if_neg (by omega)]

/-- The dispatch body propagates an argument-building failure. -/
theorem rawDispatch_args_err (fn : GoFunc) (f : valueFn) (params : List valueFn)
    (ctx : Context) (input : Value) (e : GoError)
    (hin : f ctx = Except.ok input)
    (hargs : buildArgs fn 1 params ctx = Except.error e) :
    rawDispatch fn f params ctx = Except.error e := by
  unfold rawDispatch
  rw [hin]
  simp only []
  rw [hargs]

/-- The dispatch body on a successful run converts the call result. -/
theorem rawDispatch_ok (fn : GoFunc) (f : valueFn) (params : List valueFn)
    (ctx : Context) (input : Value) (rest : List Value) (out : Value)
    (hin : f ctx = Except.ok input)
    (hargs : buildArgs fn 1 params ctx = Except.ok rest)
    (hcall : genericsCall fn (input :: rest) = Except.ok out) :
    rawDispatch fn f params ctx = Except.ok (convertOut out) := by
  unfold rawDispatch
  rw [hin]
  simp only []
  rw [hargs]
  simp only []
  rw [hcall]

/-- The argument loop fails with the host type-assertion error when a
    closure-typed parameter's argument evaluates to a non-string. -/
theorem buildArgs_closure_nonstr (fn : GoFunc) (p : valueFn) (ps : List valueFn)
    (ctx : Context) (v : Value)
    (hc : 1 < fn.ins.length) (hty : fn.ins.getD 1 GoType.valueT = GoType.closureT)
    (hp : p ctx = Except.ok v) (hv : ∀ s, v ≠ Value.strV s) :
    buildArgs fn 1 (p :: ps) ctx = Except.error GoError.typeAssertion := by
  unfold buildArgs
  rw [if_pos ⟨hc, by rw [hty]; rfl⟩, hp]
  cases v with
  | strV s => exact absurd rfl (hv s)
  | nil => rfl
  | boolV b => rfl
  | intV n => rfl
  | bytesV bs => rfl
  | closureV e c => rfl

/-- The argument loop fails with the parse error when the string value
    of a closure-typed parameter's argument does not re-parse. -/
theorem buildArgs_closure_parsefail (fn : GoFunc) (p : valueFn) (ps : List valueFn)
    (ctx : Context) (s m : String)
    (hc : 1 < fn.ins.length) (hty : fn.ins.getD 1 GoType.valueT = GoType.closureT)
    (hp : p ctx = Except.ok (Value.strV s))
    (hparse : Parse s = Except.error (GoError.parseError m)) :
    buildArgs fn 1 (p :: ps) ctx = Except.error (GoError.parseError m) := by
  unfold buildArgs
  rw [if_pos ⟨hc, by rw [hty]; rfl⟩, hp]
  simp only []
  rw [hparse]

/-- A context and a handful of filters used by the concrete witnesses. -/
def ctxW : Context := fun _ => Value.nil

/-- A filter whose body raises a generic (domain-level) error. -/
def fnGen : GoFunc := ⟨[GoType.valueT], 1, fun _ => Except.error (GoError.genericError "boom")⟩

/-- A filter whose body raises a non-generic host error. -/
def fnHost : GoFunc := ⟨[GoType.valueT], 1, fun _ => Except.error (GoError.hostError "bug")⟩

/-- A filter with an expression-closure second parameter returning it. -/
def fnCls : GoFunc := ⟨[GoType.valueT, GoType.closureT], 1,
  fun args => Except.ok (args.getD 1 Value.nil)⟩

/-- A filter whose body returns a byte slice. -/
def fnBytes : GoFunc := ⟨[GoType.valueT], 1, fun _ => Except.ok (Value.bytesV [104, 105])⟩

/-- A filter whose body returns an integer. -/
def fnInt : GoFunc := ⟨[GoType.valueT], 1, fun _ => Except.ok (Value.intV 7)⟩

/-- A filter with one required and one optional parameter. -/
def fnAr : GoFunc := ⟨[GoType.valueT, GoType.valueT, GoType.optionalT], 1,
  fun args => Except.ok (args.getD 1 Value.nil)⟩

/-- The registry holding the witness filters. -/
def filtersW : FilterMap := fun k =>
  if k = "gen" then some (GoValue.funcV fnGen)
  else if k = "host" then some (GoValue.funcV fnHost)
  else if k = "cls" then some (GoValue.funcV fnCls)
  else if k = "bytes" then some (GoValue.funcV fnBytes)
  else if k = "int" then some (GoValue.funcV fnInt)
  else if k = "ar" then some (GoValue.funcV fnAr)
  else none

/-- C2: if the filter body (or any step of the dispatch body) raises a
    generic domain-level error, the deferred recover converts it to an
    InterpreterError with the same message; every other raised error
    propagates unchanged, and successful results pass through. -/
theorem filter_generic_error_conversion (filters : FilterMap) (f : valueFn)
    (name : String) (params : List valueFn) (fn : GoFunc) (ctx : Context)
    (hf : filters name = some (GoValue.funcV fn)) :
    (∀ m, rawDispatch fn f params ctx = Except.error (GoError.genericError m) →
      evalFilterApp filters f name params ctx = Except.error (GoError.interpreterError m)) ∧
    (∀ e, (∀ m, e ≠ GoError.genericError m) →
      rawDispatch fn f params ctx = Except.error e →
      evalFilterApp filters f name params ctx = Except.error e) ∧
    (∀ v, rawDispatch fn f params ctx = Except.ok v →
      evalFilterApp filters f name params ctx = Except.ok v) := by
  refine ⟨?_, ?_, ?_⟩
  · intro m hr
    rw [evalFilterApp_eq filters f name params fn ctx hf, hr]
    rfl
  · intro e he hr
    rw [evalFilterApp_eq filters f name params fn ctx hf, hr]
    cases e <;> first | rfl | exact absurd rfl (he _)
  · intro v hr
    rw [evalFilterApp_eq filters f name params fn ctx hf, hr]
    rfl

/-- Witness for C2: a generic error becomes an InterpreterError with
    the same message; a host error propagates unchanged. -/
theorem filter_generic_error_conversion_witness :
    evalFilterApp filtersW (fun _ => Except.ok Value.nil) "gen" [] ctxW
      = Except.error (GoError.interpreterError "boom") ∧
    evalFilterApp filtersW (fun _ => Except.ok Value.nil) "host" [] ctxW
      = Except.error (GoError.hostError "bug") :=
  ⟨(filter_generic_error_conversion filtersW (fun _ => Except.ok Value.nil) "gen" [] fnGen ctxW
      rfl).1 "boom" rfl,
   (filter_generic_error_conversion filtersW (fun _ => Except.ok Value.nil) "host" [] fnHost ctxW
      rfl).2.1 (GoError.hostError "bug") (fun _ h => GoError.noConfusion h) rfl⟩

/-- C3: a filter application whose name has no registered filter fails
    with UndefinedFilter, observed when the application is evaluated
    during rendering. -/
theorem undefined_filter_error (filters : FilterMap) (f : valueFn) (name : String)
    (params : List valueFn) (ctx : Context) (h : filters name = none) :
    evalFilterApp filters f name params ctx
      = Except.error (GoError.undefinedFilter name) := by
  unfold evalFilterApp makeFilter
  rw [h]

/-- Witness for C3 at a name missing from the registry. -/
theorem undefined_filter_error_witness :
    evalFilterApp filtersW (fun _ => Except.ok Value.nil) "nope" [] ctxW
      = Except.error (GoError.undefinedFilter "nope") :=
  undefined_filter_error filtersW (fun _ => Except.ok Value.nil) "nope" [] ctxW rfl

/-- C5: a filter invocation whose evaluated argument count is below the
    required parameter count or above required plus optional fails with
    the filter arity error; within those bounds the body is invoked and
    no arity error is raised by dispatch. -/
theorem filter_arity_check (fn : GoFunc) (input : Value) (args : List Value) :
    ((args.length < requiredCount fn ∨ requiredCount fn + optionalCount fn < args.length) →
      genericsCall fn (input :: args)
        = Except.error (GoError.filterArityError args.length (requiredCount fn)
            (optionalCount fn))) ∧
    (requiredCount fn ≤ args.length → args.length ≤ requiredCount fn + optionalCount fn →
      genericsCall fn (input :: args) = fn.body (input :: args)) := by
  have hlen : (input :: args).length - 1 = args.length := by simp
  constructor
  · intro h
    unfold genericsCall
    rw [hlen, if_pos h]
  · intro h1 h2
    exact genericsCall_ok fn (input :: args) (by omega) (by omega)

/-- Witness for C5: too few arguments fail with the arity error; an
    in-bounds count reaches the body. -/
theorem filter_arity_check_witness :
    genericsCall fnAr [Value.nil] = Except.error (GoError.filterArityError 0 1 1) ∧
    genericsCall fnAr [Value.nil, Value.intV 3] = fnAr.body [Value.nil, Value.intV 3] :=
  ⟨(filter_arity_check fnAr Value.nil []).1 (Or.inl (by decide)),
   (filter_arity_check fnAr Value.nil [Value.intV 3]).2 (by decide) (by decide)⟩

/-- C6: when the filter body returns a byte slice the dispatcher
    decodes it and returns it as a string; every other returned value is
    returned unchanged. -/
theorem filter_output_bytes (filters : FilterMap) (f : valueFn) (name : String)
    (params : List valueFn) (fn : GoFunc) (ctx : Context) (input : Value)
    (rest : List Value) (out : Value)
    (hf : filters name = some (GoValue.funcV fn))
    (hin : f ctx = Except.ok input)
    (hargs : buildArgs fn 1 params ctx = Except.ok rest)
    (hcall : genericsCall fn (input :: rest) = Except.ok out) :
    (∀ bs, out = Value.bytesV bs →
      evalFilterApp filters f name params ctx
        = Except.ok (Value.strV (stringOfBytes bs))) ∧
    ((∀ bs, out ≠ Value.bytesV bs) →
      evalFilterApp filters f name params ctx = Except.ok out) := by
  have hg : evalFilterApp filters f name params ctx = Except.ok (convertOut out) := by
    rw [evalFilterApp_eq filters f name params fn ctx hf,
      rawDispatch_ok fn f params ctx input rest out hin hargs hcall]
    rfl
  constructor
  · intro bs hbs
    subst hbs
    exact hg
  · intro hb
    rw [hg]
    cases out <;> first | rfl | exact absurd rfl (hb _)

/-- Witness for C6: a byte-slice result is decoded to the string hi; an
    integer result is returned unchanged. -/
theorem filter_output_bytes_witness :
    evalFilterApp filtersW (fun _ => Except.ok Value.nil) "bytes" [] ctxW
      = Except.ok (Value.strV (stringOfBytes [104, 105])) ∧
    stringOfBytes [104, 105] = "hi" ∧
    evalFilterApp filtersW (fun _ => Except.ok Value.nil) "int" [] ctxW
      = Except.ok (Value.intV 7) :=
  ⟨(filter_output_bytes filtersW (fun _ => Except.ok Value.nil) "bytes" [] fnBytes ctxW
      Value.nil [] (Value.bytesV [104, 105]) rfl rfl rfl rfl).1 [104, 105] rfl,
   rfl,
   (filter_output_bytes filtersW (fun _ => Except.ok Value.nil) "int" [] fnInt ctxW
      Value.nil [] (Value.intV 7) rfl rfl rfl rfl).2 (fun _ h => Value.noConfusion h)⟩

/-- C9: filter registration rejects a non-function, a function without
    inputs, and a function with more than two outputs; a valid
    registration stores the callable under the name, replacing any
    previous entry and leaving other names unchanged. -/
theorem defineFilter_validation (filters : FilterMap) (name : String) :
    (∀ k, DefineFilter filters name (GoValue.nonFunc k)
        = Except.error (GoError.hostError "a filter must be a function")) ∧
    (∀ fn, fn.ins.length < 1 → DefineFilter filters name (GoValue.funcV fn)
        = Except.error (GoError.hostError "a filter function must have at least one input")) ∧
    (∀ fn, 1 ≤ fn.ins.length → 2 < fn.numOut → DefineFilter filters name (GoValue.funcV fn)
        = Except.error (GoError.hostError "a filter must be have one or two outputs")) ∧
    (∀ fn, 1 ≤ fn.ins.length → fn.numOut ≤ 2 →
      DefineFilter filters name (GoValue.funcV fn)
        = Except.ok (fun k => if k = name then some (GoValue.funcV fn) else filters k) ∧
      (fun k => if k = name then some (GoValue.funcV fn) else filters k) name
        = some (GoValue.funcV fn) ∧
      ∀ k, k ≠ name →
        (fun k' => if k' = name then some (GoValue.funcV fn) else filters k') k = filters k) := by
  refine ⟨fun k => rfl, ?_, ?_, ?_⟩
  · intro fn h
    unfold DefineFilter
    simp only []
    rw [if_pos h]
  · intro fn h1 h2
    unfold DefineFilter
    simp only []
    rw [if_neg (by omega), if_pos h2]
  · intro fn h1 h2
    refine ⟨?_, ?_, ?_⟩
    · unfold DefineFilter
      simp only []
      rw [if_neg (by omega), if_neg (by omega)]
    · simp
    · intro k hk
      simp [hk]

/-- Witness for C9 at concrete registrations against the witness
    registry. -/
theorem defineFilter_validation_witness :
    DefineFilter filtersW "f9" (GoValue.nonFunc "int")
      = Except.error (GoError.hostError "a filter must be a function") ∧
    DefineFilter filtersW "f9" (GoValue.funcV ⟨[], 1, fun _ => Except.ok Value.nil⟩)
      = Except.error (GoError.hostError "a filter function must have at least one input") ∧
    DefineFilter filtersW "f9" (GoValue.funcV ⟨[GoType.valueT], 3, fun _ => Except.ok Value.nil⟩)
      = Except.error (GoError.hostError "a filter must be have one or two outputs") ∧
    DefineFilter filtersW "f9" (GoValue.funcV fnInt)
      = Except.ok (fun k => if k = "f9" then some (GoValue.funcV fnInt) else filtersW k) ∧
    (fun k => if k = "f9" then some (GoValue.funcV fnInt) else filtersW k) "f9"
      = some (GoValue.funcV fnInt) ∧
    (fun k => if k = "f9" then some (GoValue.funcV fnInt) else filtersW k) "gen"
      = filtersW "gen" :=
  ⟨(defineFilter_validation filtersW "f9").1 "int",
   (defineFilter_validation filtersW "f9").2.1 ⟨[], 1, fun _ => Except.ok Value.nil⟩ (by decide),
   (defineFilter_validation filtersW "f9").2.2.1 ⟨[GoType.valueT], 3, fun _ => Except.ok Value.nil⟩
     (by decide) (by decide),
   ((defineFilter_validation filtersW "f9").2.2.2 fnInt (by decide) (by decide)).1,
   ((defineFilter_validation filtersW "f9").2.2.2 fnInt (by decide) (by decide)).2.1,
   ((defineFilter_validation filtersW "f9").2.2.2 fnInt (by decide) (by decide)).2.2 "gen"
     (by decide)⟩

/-- C10: an expression-closure filter argument is first evaluated and
    its value asserted to be a string before the re-parse; a non-string
    value fails with the host type-assertion error and a failed re-parse
    with the parse error, and neither is converted to an
    InterpreterError by the deferred recover. -/
theorem closure_arg_strict_eval (filters : FilterMap) (f p : valueFn) (name : String)
    (ps : List valueFn) (fn : GoFunc) (ctx : Context) (input : Value)
    (hf : filters name = some (GoValue.funcV fn))
    (hin : f ctx = Except.ok input)
    (hc : 1 < fn.ins.length)
    (hty : fn.ins.getD 1 GoType.valueT = GoType.closureT) :
    (∀ v, p ctx = Except.ok v → (∀ s, v ≠ Value.strV s) →
      evalFilterApp filters f name (p :: ps) ctx = Except.error GoError.typeAssertion) ∧
    (∀ s m, p ctx = Except.ok (Value.strV s) →
      Parse s = Except.error (GoError.parseError m) →
      evalFilterApp filters f name (p :: ps) ctx = Except.error (GoError.parseError m)) ∧
    (∀ m, GoError.typeAssertion ≠ GoError.interpreterError m) ∧
    (∀ m m', GoError.parseError m' ≠ GoError.interpreterError m) := by
  refine ⟨?_, ?_, fun m h => GoError.noConfusion h, fun m m' h => GoError.noConfusion h⟩
  · intro v hp hv
    rw [evalFilterApp_eq filters f name (p :: ps) fn ctx hf,
      rawDispatch_args_err fn f (p :: ps) ctx input GoError.typeAssertion hin
        (buildArgs_closure_nonstr fn p ps ctx v hc hty hp hv)]
    rfl
  · intro s m hp hparse
    rw [evalFilterApp_eq filters f name (p :: ps) fn ctx hf,
      rawDispatch_args_err fn f (p :: ps) ctx input (GoError.parseError m) hin
        (buildArgs_closure_parsefail fn p ps ctx s m hc hty hp hparse)]
    rfl

/-- Witness for C10: a non-string closure argument fails with the
    type-assertion error; an unparsable string fails with the parse
    error; neither is an InterpreterError. -/
theorem closure_arg_strict_eval_witness :
    evalFilterApp filtersW (fun _ => Except.ok Value.nil) "cls"
      [fun _ => Except.ok (Value.intV 3)] ctxW = Except.error GoError.typeAssertion ∧
    evalFilterApp filtersW (fun _ => Except.ok Value.nil) "cls"
      [fun _ => Except.ok (Value.strV "1+")] ctxW
      = Except.error (GoError.parseError "1+") :=
  ⟨(closure_arg_strict_eval filtersW (fun _ => Except.ok Value.nil)
      (fun _ => Except.ok (Value.intV 3)) "cls" [] fnCls ctxW Value.nil
      rfl rfl (by decide) rfl).1 (Value.intV 3) rfl (fun _ h => Value.noConfusion h),
   (closure_arg_strict_eval filtersW (fun _ => Except.ok Value.nil)
      (fun _ => Except.ok (Value.strV "1+")) "cls" [] fnCls ctxW Value.nil
      rfl rfl (by decide) rfl).2.1 "1+" "1+" rfl rfl⟩

/-- C1 counterexample: dispatch does evaluate the argument of an
    expression-closure parameter.  With the same raw parameter shape,
    an argument evaluating to a non-string makes dispatch fail with the
    host type-assertion error, and an argument evaluating to the string
    weight yields a closure of the expression parsed from that evaluated
    value; were the argument not evaluated, neither outcome could depend
    on its value. -/
theorem closure_arg_not_unevaluated :
    evalFilterApp filtersW (fun _ => Except.ok Value.nil) "cls"
      [fun _ => Except.ok (Value.intV 3)] ctxW = Except.error GoError.typeAssertion ∧
    evalFilterApp filtersW (fun _ => Except.ok Value.nil) "cls"
      [fun _ => Except.ok (Value.strV "weight")] ctxW
      = Except.ok (Value.closureV (Expr.ident "weight") ctxW) :=
  ⟨rfl, rfl⟩

/-- C1 (amended): for a filter parameter of the expression-closure
    type, dispatch evaluates the argument, asserts the resulting value
    to be a string, re-parses that string as an expression, and binds it
    with the current environment into a closure value passed to the
    filter body for later invocation. -/
theorem closure_arg_binding (filters : FilterMap) (f p : valueFn) (name s : String)
    (fn : GoFunc) (ctx : Context) (input : Value) (ex : Expr) (t0 : GoType)
    (hf : filters name = some (GoValue.funcV fn))
    (hins : fn.ins = [t0, GoType.closureT])
    (hin : f ctx = Except.ok input)
    (hp : p ctx = Except.ok (Value.strV s))
    (hparse : Parse s = Except.ok ex) :
    buildArgs fn 1 [p] ctx = Except.ok [Value.closureV ex ctx] ∧
    evalFilterApp filters f name [p] ctx
      = recoverWrap (Except.map convertOut (fn.body [input, Value.closureV ex ctx])) := by
  have hc : 1 < fn.ins.length := by rw [hins]; simp
  have hty : fn.ins.getD 1 GoType.valueT = GoType.closureT := by rw [hins]; rfl
  have hbuild : buildArgs fn 1 [p] ctx = Except.ok [Value.closureV ex ctx] := by
    unfold buildArgs
    rw [if_pos ⟨hc, by rw [hty]; rfl⟩, hp]
    simp only []
    rw [hparse]
    rfl
  have hr : requiredCount fn = 1 := by unfold requiredCount; rw [hins]; rfl
  have ho : optionalCount fn = 0 := by unfold optionalCount; rw [hins]; rfl
  have hcall : genericsCall fn [input, Value.closureV ex ctx]
      = fn.body [input, Value.closureV ex ctx] :=
    genericsCall_ok fn [input, Value.closureV ex ctx] (by rw [hr]; simp)
      (by rw [hr, ho]; simp)
  refine ⟨hbuild, ?_⟩
  rw [evalFilterApp_eq filters f name [p] fn ctx hf]
  unfold rawDispatch
  rw [hin]
  simp only []
  rw [hbuild]
  simp only []
  rw [hcall]
  cases hb : fn.body [input, Value.closureV ex ctx] with
  | error e => rfl
  | ok out => rfl

/-- Witness for C1's amended claim: the evaluated string weight is
    re-parsed and the closure of the parsed expression and the current
    environment reaches the filter body, which returns it here. -/
theorem closure_arg_binding_witness :
    buildArgs fnCls 1 [fun _ => Except.ok (Value.strV "weight")] ctxW
      = Except.ok [Value.closureV (Expr.ident "weight") ctxW] ∧
    evalFilterApp filtersW (fun _ => Except.ok Value.nil) "cls"
      [fun _ => Except.ok (Value.strV "weight")] ctxW
      = recoverWrap (Except.map convertOut
          (fnCls.body [Value.nil, Value.closureV (Expr.ident "weight") ctxW])) :=
  closure_arg_binding filtersW (fun _ => Except.ok Value.nil)
    (fun _ => Except.ok (Value.strV "weight")) "cls" "weight" fnCls ctxW Value.nil
    (Expr.ident "weight") GoType.valueT rfl rfl rfl rfl rfl
